import Mathlib

/-!
Verification development for the colocalization core of the PNN counting
pipeline (src/colocalization.py).

Modelling conventions, all derived from the source:

* A detection row is a record of a numeric index (the DataFrame index,
  `row position + 2`) together with its X and Y pixel coordinates.
  Coordinates are modelled as rationals.

* The source computes Euclidean distances with `np.sqrt` and compares them
  with a threshold, takes an argmin over them, and stores them.  Because
  `Real.sqrt` is not executable, the embedding carries the squared
  Euclidean distance everywhere and performs every comparison in squared
  form, which preserves every comparison of the source exactly:
  `sqrt s <= t` iff `0 <= t` and `s <= t^2`, and `sqrt` is strictly
  monotone on nonnegative arguments, so an argmin over square roots is an
  argmin over the squares.  Bridge lemmas relating the squared forms to
  `Real.sqrt` are proved below.  Consequently every stored distance value
  in this file (pair distances, the distances list, triple mean distances)
  is the squared-distance counterpart of the float the source stores.

* `np.argmin` returns the position of the first occurrence of the minimum;
  the embedding folds left keeping the current best and replacing it only
  on a strict improvement, which has the same first-occurrence semantics.
-/

/-- One detection row: the DataFrame index (stable id, `row position + 2`)
and the X, Y pixel coordinates, as loaded by `load_localizations`. -/
structure Detection where
  id : ℕ
  x : ℚ
  y : ℚ
deriving DecidableEq

/-- Squared Euclidean distance between two detections; the source computes
`np.sqrt(np.sum((coords2 - coord1) ** 2, axis=1))` and this embedding
carries the value before the square root. -/
def sq_dist (a b : Detection) : ℚ :=
  (a.x - b.x) ^ 2 + (a.y - b.y) ^ 2

/-- Threshold acceptance test of `find_colocalizations`
(`min_distance <= threshold` in the source, on square-rooted values),
expressed on the squared distance: `sqrt s <= t` iff `0 <= t ∧ s <= t^2`
for `0 <= s`.  `sq` is the squared distance, `t` the pixel threshold. -/
def dist_le (sq t : ℚ) : Bool :=
  decide (0 ≤ t) && decide (sq ≤ t ^ 2)

/-- Inner scan of the `np.argmin` computation: walk the remaining
detections keeping the current best `(id, squared distance)` and replace
it only on a strict improvement, i.e. first-occurrence-of-minimum
semantics. -/
def nearestAux (a : Detection) : ℕ × ℚ → List Detection → ℕ × ℚ
  | best, [] => best
  | best, b :: bs =>
      nearestAux a (if sq_dist a b < best.2 then (b.id, sq_dist a b) else best) bs

/-- Nearest neighbour of `a` in a list of detections: the id of the first
detection attaining the minimal (squared) distance, with that distance.
Returns `none` on an empty list (the source never reaches `np.argmin` with
an empty set because of the emptiness guard). -/
def nearestIn (a : Detection) : List Detection → Option (ℕ × ℚ)
  | [] => none
  | b :: bs => some (nearestAux a (b.id, sq_dist a b) bs)

/-- The id component of the nearest neighbour (defaults to `0`, unused on
nonempty lists). -/
def nearestId (a : Detection) (B : List Detection) : ℕ :=
  ((nearestIn a B).getD (0, 0)).1

/-- The minimal squared distance from `a` into `B` (defaults to `0`,
unused on nonempty lists). -/
def minSqDist (a : Detection) (B : List Detection) : ℚ :=
  ((nearestIn a B).getD (0, 0)).2

/-- Result record of `find_colocalizations`: the `coloc_data` dictionary
with keys `pairs` (triples of id in set 1, id in set 2, squared distance),
`distances` (all minimal squared distances, for distribution analysis),
`unpaired_1` and `unpaired_2`. -/
structure ColocData where
  pairs : List (ℕ × ℕ × ℚ)
  distances : List ℚ
  unpaired_1 : List ℕ
  unpaired_2 : List ℕ
deriving DecidableEq

/-- The main loop of `find_colocalizations` over the first detection set:
for each detection find the nearest detection of `B`, always append the
minimal distance to the distances list, and append to `pairs` or to
`unpaired_1` according to the threshold test.  Returns
(pairs, distances, unpaired_1). -/
def colocLoop (B : List Detection) (t : ℚ) :
    List Detection → List (ℕ × ℕ × ℚ) × List ℚ × List ℕ
  | [] => ([], [], [])
  | a :: as =>
      let rest := colocLoop B t as
      match nearestIn a B with
      | none => rest
      | some (bid, sq) =>
          if dist_le sq t then
            ((a.id, bid, sq) :: rest.1, sq :: rest.2.1, rest.2.2)
          else
            (rest.1, sq :: rest.2.1, a.id :: rest.2.2)

/-- Embedding of `find_colocalizations(detections1, detections2, threshold)`:
if either set is empty the empty `coloc_data` record is returned as built at
the top of the function; otherwise run the per-detection loop and collect
as `unpaired_2` every id of `B` that is never the second component of an
accepted pair (the `paired_2` set of the source). -/
def find_colocalizations (A B : List Detection) (t : ℚ) : ColocData :=
  if A.isEmpty || B.isEmpty then ⟨[], [], [], []⟩
  else
    let r := colocLoop B t A
    { pairs := r.1
      distances := r.2.1
      unpaired_1 := r.2.2
      unpaired_2 := (B.map (·.id)).filter (fun i => !(r.1.map (fun p => p.2.1)).contains i) }

/-! ### Bridge lemmas: squared comparisons versus Euclidean distance -/

/-- The squared distance is nonnegative. -/
theorem sq_dist_nonneg (a b : Detection) : 0 ≤ sq_dist a b := by
  unfold sq_dist; positivity

/-- The threshold test on the squared distance is exactly the comparison
of the Euclidean distance with the threshold performed by the source. -/
theorem sqrt_le_iff_dist_le (sq t : ℚ) (hsq : 0 ≤ sq) :
    Real.sqrt (sq : ℝ) ≤ (t : ℝ) ↔ dist_le sq t = true := by
  unfold dist_le
  simp only [Bool.and_eq_true, decide_eq_true_eq]
  constructor
  · intro h
    have ht : (0 : ℝ) ≤ (t : ℝ) := le_trans (Real.sqrt_nonneg _) h
    have hsq' : (0 : ℝ) ≤ (sq : ℝ) := by exact_mod_cast hsq
    have h2 : (sq : ℝ) ≤ (t : ℝ) ^ 2 := by
      calc (sq : ℝ) = Real.sqrt (sq : ℝ) ^ 2 := (Real.sq_sqrt hsq').symm
        _ ≤ (t : ℝ) ^ 2 := by
            exact pow_le_pow_left (Real.sqrt_nonneg _) h 2
    exact ⟨by exact_mod_cast ht, by exact_mod_cast h2⟩
  · rintro ⟨ht, h2⟩
    have ht' : (0 : ℝ) ≤ (t : ℝ) := by exact_mod_cast ht
    have h2' : (sq : ℝ) ≤ (t : ℝ) ^ 2 := by exact_mod_cast h2
    calc Real.sqrt (sq : ℝ) ≤ Real.sqrt ((t : ℝ) ^ 2) := Real.sqrt_le_sqrt h2'
      _ = (t : ℝ) := Real.sqrt_sq ht'

/-- Monotonicity of the threshold test in the threshold. -/
theorem dist_le_mono (sq t₁ t₂ : ℚ) (h : t₁ ≤ t₂) (h1 : dist_le sq t₁ = true) :
    dist_le sq t₂ = true := by
  unfold dist_le at h1 ⊢
  simp only [Bool.and_eq_true, decide_eq_true_eq] at h1 ⊢
  refine ⟨le_trans h1.1 h, le_trans h1.2 ?_⟩
  exact pow_le_pow_left h1.1 h 2

/-! ### First-occurrence argmin lemmas -/

/-- The scan never increases the best value. -/
theorem nearestAux_le_init (a : Detection) (bs : List Detection) (best : ℕ × ℚ) :
    (nearestAux a best bs).2 ≤ best.2 := by
  induction bs generalizing best with
  | nil => exact le_refl _
  | cons b bs ih =>
      show (nearestAux a (if sq_dist a b < best.2 then (b.id, sq_dist a b) else best) bs).2 ≤ best.2
      by_cases h : sq_dist a b < best.2
      · rw [if_pos h]; exact le_trans (ih _) (le_of_lt h)
      · rw [if_neg h]; exact ih best

/-- The scan result is a lower bound of all scanned distances. -/
theorem nearestAux_le_mem (a : Detection) (bs : List Detection) (best : ℕ × ℚ) :
    ∀ b ∈ bs, (nearestAux a best bs).2 ≤ sq_dist a b := by
  induction bs generalizing best with
  | nil => intro b hb; cases hb
  | cons c bs ih =>
      intro b hb
      show (nearestAux a (if sq_dist a c < best.2 then (c.id, sq_dist a c) else best) bs).2
        ≤ sq_dist a b
      rcases List.mem_cons.mp hb with hb | hb
      · subst hb
        by_cases h : sq_dist a b < best.2
        · rw [if_pos h]
          exact nearestAux_le_init a bs _
        · rw [if_neg h]
          exact le_trans (nearestAux_le_init a bs best) (not_lt.mp h)
      · by_cases h : sq_dist a c < best.2
        · rw [if_pos h]; exact ih _ b hb
        · rw [if_neg h]; exact ih best b hb

/-- The scan result is the initial best or comes from a scanned element. -/
theorem nearestAux_cases (a : Detection) (bs : List Detection) (best : ℕ × ℚ) :
    nearestAux a best bs = best ∨ ∃ b ∈ bs, nearestAux a best bs = (b.id, sq_dist a b) := by
  induction bs generalizing best with
  | nil => exact Or.inl rfl
  | cons c bs ih =>
      have hx :
          nearestAux a best (c :: bs)
            = nearestAux a (if sq_dist a c < best.2 then (c.id, sq_dist a c) else best) bs := rfl
      by_cases h : sq_dist a c < best.2
      · rw [hx, if_pos h]
        rcases ih ((c.id, sq_dist a c)) with h1 | ⟨b, hb, h1⟩
        · exact Or.inr ⟨c, List.mem_cons_self _ _, h1⟩
        · exact Or.inr ⟨b, List.mem_cons_of_mem _ hb, h1⟩
      · rw [hx, if_neg h]
        rcases ih best with h1 | ⟨b, hb, h1⟩
        · exact Or.inl h1
        · exact Or.inr ⟨b, List.mem_cons_of_mem _ hb, h1⟩

/-- If the initial best already attains the final value, it is kept: the
replacement is only on strict improvement (first-occurrence semantics of
`np.argmin`). -/
theorem nearestAux_keep (a : Detection) (bs : List Detection) (best : ℕ × ℚ)
    (h : best.2 ≤ (nearestAux a best bs).2) : nearestAux a best bs = best := by
  induction bs generalizing best with
  | nil => rfl
  | cons c bs ih =>
      have hx :
          nearestAux a best (c :: bs)
            = nearestAux a (if sq_dist a c < best.2 then (c.id, sq_dist a c) else best) bs := rfl
      by_cases hc : sq_dist a c < best.2
      · exfalso
        rw [hx, if_pos hc] at h
        have h2 := nearestAux_le_init a bs ((c.id, sq_dist a c))
        exact absurd (lt_of_lt_of_le hc h) (not_lt.mpr h2)
      · rw [hx, if_neg hc] at h ⊢
        exact ih best h

/-- Among scanned elements that tie with the final minimum, the result id
is a lower bound, provided ids strictly increase along the scan. -/
theorem nearestAux_lowest (a : Detection) (bs : List Detection) (best : ℕ × ℚ)
    (hids : ∀ b ∈ bs, best.1 < b.id)
    (hsort : bs.Pairwise (fun x y => x.id < y.id)) :
    ∀ b ∈ bs, sq_dist a b ≤ (nearestAux a best bs).2 → (nearestAux a best bs).1 ≤ b.id := by
  induction bs generalizing best with
  | nil => intro b hb; cases hb
  | cons c bs ih =>
      have hsort' := (List.pairwise_cons.mp hsort).2
      have hcid := (List.pairwise_cons.mp hsort).1
      intro b hb htie
      have hx :
          nearestAux a best (c :: bs)
            = nearestAux a (if sq_dist a c < best.2 then (c.id, sq_dist a c) else best) bs := rfl
      rcases List.mem_cons.mp hb with hb | hb
      · subst hb
        by_cases hc : sq_dist a b < best.2
        · rw [hx, if_pos hc] at htie ⊢
          have hkeep := nearestAux_keep a bs ((b.id, sq_dist a b)) htie
          rw [hkeep]
        · rw [hx, if_neg hc] at htie ⊢
          have hle := nearestAux_le_init a bs best
          have heq : best.2 ≤ (nearestAux a best bs).2 :=
            le_trans (not_lt.mp hc) htie
          have hkeep := nearestAux_keep a bs best heq
          rw [hkeep]
          exact le_of_lt (hids b (List.mem_cons_self _ _))
      · by_cases hc : sq_dist a c < best.2
        · rw [hx, if_pos hc] at htie ⊢
          exact ih ((c.id, sq_dist a c)) (fun x hx' => hcid x hx') hsort' b hb htie
        · rw [hx, if_neg hc] at htie ⊢
          refine ih best ?_ hsort' b hb htie
          intro x hx'
          exact lt_trans (hids c (List.mem_cons_self _ _)) (hcid x hx')

/-- On a nonempty list the nearest-neighbour computation returns exactly
the pair of accessor values. -/
theorem nearestIn_eq (a : Detection) (B : List Detection) (hB : B ≠ []) :
    nearestIn a B = some (nearestId a B, minSqDist a B) := by
  cases B with
  | nil => exact absurd rfl hB
  | cons b bs =>
      unfold nearestId minSqDist nearestIn
      rfl

/-- Characterisation of the nearest neighbour on a nonempty list whose ids
strictly increase along the list: it is a member, it minimises the squared
distance, and among minimisers it has the least id. -/
theorem nearestIn_spec (a : Detection) (B : List Detection) (hB : B ≠ [])
    (hsort : B.Pairwise (fun x y => x.id < y.id)) :
    ∃ bstar ∈ B,
      nearestId a B = bstar.id ∧ minSqDist a B = sq_dist a bstar ∧
      (∀ b ∈ B, sq_dist a bstar ≤ sq_dist a b) ∧
      (∀ b ∈ B, sq_dist a b = sq_dist a bstar → bstar.id ≤ b.id) := by
  cases B with
  | nil => exact absurd rfl hB
  | cons b₀ bs =>
      have hsort' := (List.pairwise_cons.mp hsort).2
      have hids := (List.pairwise_cons.mp hsort).1
      have hres : nearestIn a (b₀ :: bs) = some (nearestAux a (b₀.id, sq_dist a b₀) bs) := rfl
      have hid : nearestId a (b₀ :: bs) = (nearestAux a (b₀.id, sq_dist a b₀) bs).1 := rfl
      have hsq : minSqDist a (b₀ :: bs) = (nearestAux a (b₀.id, sq_dist a b₀) bs).2 := rfl
      rcases nearestAux_cases a bs ((b₀.id, sq_dist a b₀)) with hc | ⟨b, hb, hc⟩
      · refine ⟨b₀, List.mem_cons_self _ _, ?_, ?_, ?_, ?_⟩
        · rw [hid, hc]
        · rw [hsq, hc]
        · intro b hb
          rcases List.mem_cons.mp hb with hb | hb
          · subst hb; exact le_refl _
          · have := nearestAux_le_mem a bs ((b₀.id, sq_dist a b₀)) b hb
            rw [hc] at this; exact this
        · intro b hb htie
          rcases List.mem_cons.mp hb with hb | hb
          · subst hb; exact le_refl _
          · exact le_of_lt (hids b hb)
      · refine ⟨b, List.mem_cons_of_mem _ hb, ?_, ?_, ?_, ?_⟩
        · rw [hid, hc]
        · rw [hsq, hc]
        · intro c hcm
          rcases List.mem_cons.mp hcm with hcm | hcm
          · have := nearestAux_le_init a bs ((b₀.id, sq_dist a b₀))
            rw [hc] at this; subst hcm; exact this
          · have := nearestAux_le_mem a bs ((b₀.id, sq_dist a b₀)) c hcm
            rw [hc] at this; exact this
        · intro c hcm htie
          rcases List.mem_cons.mp hcm with hcm | hcm
          · -- a tie with the head forces the head to be kept
            rw [hcm] at htie
            have hkeep := nearestAux_keep a bs ((b₀.id, sq_dist a b₀))
              (by rw [hc]; exact le_of_eq htie)
            rw [hkeep] at hc
            have hfst : b₀.id = b.id := congrArg Prod.fst hc
            rw [hcm]
            exact le_of_eq hfst.symm
          · have hlow := nearestAux_lowest a bs ((b₀.id, sq_dist a b₀))
              (fun x hx => hids x hx) hsort' c hcm (by rw [hc]; exact le_of_eq htie)
            rw [hc] at hlow
            exact hlow

/-- The main loop of `find_colocalizations` computes, in list order, the
accepted pairs (filter by the threshold test), the full list of minimal
distances, and the rejected ids. -/
theorem colocLoop_eq (B : List Detection) (t : ℚ) (hB : B ≠ []) (A : List Detection) :
    colocLoop B t A =
      ((A.filter (fun a => dist_le (minSqDist a B) t)).map
          (fun a => (a.id, nearestId a B, minSqDist a B)),
        A.map (fun a => minSqDist a B),
        (A.filter (fun a => !(dist_le (minSqDist a B) t))).map (fun a => a.id)) := by
  induction A with
  | nil => rfl
  | cons a as ih =>
      have hx : colocLoop B t (a :: as)
          = (match nearestIn a B with
             | none => colocLoop B t as
             | some (bid, sq) =>
                 if dist_le sq t then
                   ((a.id, bid, sq) :: (colocLoop B t as).1,
                     sq :: (colocLoop B t as).2.1, (colocLoop B t as).2.2)
                 else
                   ((colocLoop B t as).1, sq :: (colocLoop B t as).2.1,
                     a.id :: (colocLoop B t as).2.2)) := rfl
      rw [hx, nearestIn_eq a B hB, ih]
      by_cases h : dist_le (minSqDist a B) t = true
      · simp [h]
      · simp [h]

/-- C1.  For nonempty point sets whose second set has strictly increasing
ids, `find_colocalizations` selects for every detection of the first set
the detection of the second set minimising the Euclidean distance, ties
broken by the least id; it records the accepted pair exactly when the
minimal distance is within the threshold and otherwise records the
detection as unpaired on side 1; and the minimal distance of every
detection of the first set is retained in the distances list. -/
theorem find_colocalizations_spec
    (A B : List Detection) (t : ℚ) (hA : A ≠ []) (hB : B ≠ [])
    (hsort : B.Pairwise (fun x y => x.id < y.id)) :
    (∀ a ∈ A, ∃ bstar ∈ B,
        nearestId a B = bstar.id ∧ minSqDist a B = sq_dist a bstar ∧
        (∀ b ∈ B,
          Real.sqrt ((sq_dist a bstar : ℚ) : ℝ) ≤ Real.sqrt ((sq_dist a b : ℚ) : ℝ)) ∧
        (∀ b ∈ B, sq_dist a b = sq_dist a bstar → bstar.id ≤ b.id)) ∧
    (∀ sq : ℚ, 0 ≤ sq → (dist_le sq t = true ↔ Real.sqrt ((sq : ℚ) : ℝ) ≤ (t : ℝ))) ∧
    (find_colocalizations A B t).pairs
      = (A.filter (fun a => dist_le (minSqDist a B) t)).map
          (fun a => (a.id, nearestId a B, minSqDist a B)) ∧
    (find_colocalizations A B t).unpaired_1
      = (A.filter (fun a => !(dist_le (minSqDist a B) t))).map (fun a => a.id) ∧
    (find_colocalizations A B t).distances = A.map (fun a => minSqDist a B) := by
  have hempty : (A.isEmpty || B.isEmpty) = false := by
    cases A with
    | nil => exact absurd rfl hA
    | cons a as =>
        cases B with
        | nil => exact absurd rfl hB
        | cons b bs => rfl
  have hfc : find_colocalizations A B t
      = { pairs := (colocLoop B t A).1
          distances := (colocLoop B t A).2.1
          unpaired_1 := (colocLoop B t A).2.2
          unpaired_2 := (B.map (·.id)).filter
            (fun i => !((colocLoop B t A).1.map (fun p => p.2.1)).contains i) } := by
    unfold find_colocalizations
    rw [hempty, if_neg (show ¬(false = true) by simp)]
  refine ⟨?_, ?_, ?_, ?_, ?_⟩
  · intro a ha
    rcases nearestIn_spec a B hB hsort with ⟨bstar, hbs, h1, h2, h3, h4⟩
    refine ⟨bstar, hbs, h1, h2, ?_, h4⟩
    intro b hb
    have := h3 b hb
    exact Real.sqrt_le_sqrt (by exact_mod_cast this)
  · intro sq hsq
    exact (sqrt_le_iff_dist_le sq t hsq).symm
  · rw [hfc, colocLoop_eq B t hB A]
  · rw [hfc, colocLoop_eq B t hB A]
  · rw [hfc, colocLoop_eq B t hB A]

/-- Witness for C1 on the concrete scenario of the specification:
two detections against two detections with threshold 5. -/
theorem find_colocalizations_spec_witness :
    ([⟨2,0,0⟩, ⟨3,10,10⟩] : List Detection) ≠ [] ∧
    ([⟨2,0,3⟩, ⟨3,20,20⟩] : List Detection) ≠ [] ∧
    ([⟨2,0,3⟩, ⟨3,20,20⟩] : List Detection).Pairwise (fun x y => x.id < y.id) ∧
    (find_colocalizations [⟨2,0,0⟩, ⟨3,10,10⟩] [⟨2,0,3⟩, ⟨3,20,20⟩] 5).distances
      = ([⟨2,0,0⟩, ⟨3,10,10⟩] : List Detection).map
          (fun a => minSqDist a [⟨2,0,3⟩, ⟨3,20,20⟩]) := by
  refine ⟨by simp, by simp, by decide, ?_⟩
  exact (find_colocalizations_spec [⟨2,0,0⟩, ⟨3,10,10⟩] [⟨2,0,3⟩, ⟨3,20,20⟩] 5
    (by simp) (by simp) (by decide)).2.2.2.2

/-- C2 counterexample.  With a nonempty first set and an empty second set
the source returns the initial `coloc_data` record unchanged: no pairs and
no unmatched entries on either side.  In particular the detection of the
first set is NOT reported as unmatched on side 1, contrary to the claim
that all of the nonempty set is unmatched on its side. -/
theorem find_colocalizations_empty_counterexample :
    (find_colocalizations [⟨2,0,0⟩] [] (5:ℚ)).pairs = [] ∧
    (find_colocalizations [⟨2,0,0⟩] [] (5:ℚ)).unpaired_2 = [] ∧
    (find_colocalizations [⟨2,0,0⟩] [] (5:ℚ)).unpaired_1 = [] ∧
    (2:ℕ) ∉ (find_colocalizations [⟨2,0,0⟩] [] (5:ℚ)).unpaired_1 := by
  refine ⟨rfl, rfl, rfl, ?_⟩
  simp [find_colocalizations]

/-- C2 (amended).  If either input set is empty, `find_colocalizations`
does not fail and returns the entirely empty result: no pairs, no
distances, and empty unmatched lists on both sides (the members of the
nonempty set are not reported as unmatched). -/
theorem find_colocalizations_empty (A B : List Detection) (t : ℚ)
    (h : A = [] ∨ B = []) :
    find_colocalizations A B t = ⟨[], [], [], []⟩ := by
  rcases h with h | h
  · subst h; rfl
  · subst h
    unfold find_colocalizations
    rw [if_pos]
    simp

/-- Witness for the amended C2 at a concrete nonempty first set and empty
second set. -/
theorem find_colocalizations_empty_witness :
    (([⟨2,0,0⟩] : List Detection) = [] ∨ ([] : List Detection) = []) ∧
    find_colocalizations [⟨2,0,0⟩] [] (5:ℚ) = ⟨[], [], [], []⟩ :=
  ⟨Or.inr rfl, find_colocalizations_empty [⟨2,0,0⟩] [] 5 (Or.inr rfl)⟩

/-- C8.  Threshold monotonicity: every accepted pair at the smaller
threshold is an accepted pair at the larger threshold, for fixed point
sets. -/
theorem find_colocalizations_threshold_mono
    (A B : List Detection) (t₁ t₂ : ℚ) (h : t₁ < t₂) :
    ∀ p ∈ (find_colocalizations A B t₁).pairs, p ∈ (find_colocalizations A B t₂).pairs := by
  intro p hp
  by_cases hemp : (A.isEmpty || B.isEmpty) = true
  · unfold find_colocalizations at hp
    rw [if_pos hemp] at hp
    cases hp
  · have hB : B ≠ [] := by
      cases B with
      | nil => simp at hemp
      | cons b bs => simp
    have hp1 : (find_colocalizations A B t₁).pairs = (colocLoop B t₁ A).1 := by
      unfold find_colocalizations
      rw [if_neg hemp]
    have hp2 : (find_colocalizations A B t₂).pairs = (colocLoop B t₂ A).1 := by
      unfold find_colocalizations
      rw [if_neg hemp]
    rw [hp1, colocLoop_eq B t₁ hB A] at hp
    rw [hp2, colocLoop_eq B t₂ hB A]
    simp only [List.mem_map, List.mem_filter] at hp ⊢
    rcases hp with ⟨a, ⟨ha, hacc⟩, hpa⟩
    exact ⟨a, ⟨ha, dist_le_mono (minSqDist a B) t₁ t₂ (le_of_lt h) hacc⟩, hpa⟩

/-- Witness for C8: the pair accepted at threshold 4 is still accepted at
threshold 5. -/
theorem find_colocalizations_threshold_mono_witness :
    (4:ℚ) < 5 ∧
    (2, 2, (9:ℚ)) ∈ (find_colocalizations [⟨2,0,0⟩, ⟨3,10,10⟩] [⟨2,0,3⟩, ⟨3,20,20⟩] 5).pairs := by
  refine ⟨by norm_num, ?_⟩
  exact find_colocalizations_threshold_mono [⟨2,0,0⟩, ⟨3,10,10⟩] [⟨2,0,3⟩, ⟨3,20,20⟩] 4 5
    (by norm_num) (2, 2, (9:ℚ)) (by with_unfolding_all decide)

/-! ### Threshold configuration (configure_thresholds, get_pixel_size_input,
process_section) -/

/-- Validation of a pixel-size value as performed by
`get_pixel_size_input` on an already parsed numeric value: the value is
returned when strictly positive, otherwise it is rejected (the source
prints an error and returns None, which keeps the section pixel-only);
this rejection is the InvalidConfiguration condition of the design. -/
def get_pixel_size_input (value : ℚ) : Option ℚ :=
  if 0 < value then some value else none

/-- Per-section threshold record stored by `configure_thresholds`:
the keys microns, pixels, pixel_size. -/
structure Threshold where
  microns : Option ℚ
  pixels : ℚ
  pixel_size : Option ℚ
deriving DecidableEq

/-- The micron-to-pixel conversion of `configure_thresholds`
(`pixel_threshold = micron_threshold / pixel_size`) building the stored
threshold record for one section with a known pixel size. -/
def configure_threshold_entry (micron_threshold pixel_size : ℚ) : Threshold :=
  { microns := some micron_threshold
    pixels := micron_threshold / pixel_size
    pixel_size := some pixel_size }

/-- Derivation of a section threshold from a raw pixel-size value as the
source composes it: the pixel size must first pass
`get_pixel_size_input` validation (only validated sizes are stored in
`self.pixel_sizes`), and `configure_thresholds` then divides the micron
threshold by it. -/
def derive_threshold (micron_threshold raw_pixel_size : ℚ) : Option Threshold :=
  (get_pixel_size_input raw_pixel_size).map
    (fun p => configure_threshold_entry micron_threshold p)

/-- C9.  The conversion computes micron threshold divided by pixel size,
and every non-positive pixel size is rejected by the validation step as
an invalid configuration (no threshold is derived and no other failure
occurs), while every positive pixel size yields exactly the divided
threshold. -/
theorem derive_threshold_spec (um p : ℚ) :
    (p ≤ 0 → derive_threshold um p = none) ∧
    (0 < p → derive_threshold um p
        = some { microns := some um, pixels := um / p, pixel_size := some p }) := by
  constructor
  · intro hp
    unfold derive_threshold get_pixel_size_input
    rw [if_neg (not_lt.mpr hp)]
    rfl
  · intro hp
    unfold derive_threshold get_pixel_size_input
    rw [if_pos hp]
    rfl

/-- Witness for C9: pixel size -1 is rejected, pixel size 1/2 converts a
micron threshold of 5 to 10 pixels. -/
theorem derive_threshold_spec_witness :
    ((-1:ℚ) ≤ 0 ∧ derive_threshold 5 (-1) = none) ∧
    ((0:ℚ) < 1/2 ∧ derive_threshold 5 (1/2)
        = some { microns := some 5, pixels := 5 / (1/2), pixel_size := some (1/2) }) :=
  ⟨⟨by norm_num, (derive_threshold_spec 5 (-1)).1 (by norm_num)⟩,
   ⟨by norm_num, (derive_threshold_spec 5 (1/2)).2 (by norm_num)⟩⟩

/-- The colocalization call of `process_section` for one ordered channel
pair: the threshold passed to `find_colocalizations` is
`threshold_data.get(pixels, 10)`, i.e. the configured pixels value when
present and the silent default of 10 pixels otherwise; the section is
processed either way. -/
def process_section_pair (d₁ d₂ : List Detection) (threshold_pixels : Option ℚ) :
    ColocData :=
  find_colocalizations d₁ d₂ (threshold_pixels.getD 10)

/-- C10.  A section whose threshold data has no pixels entry is neither
skipped nor failed: the pairwise matching is performed with the silent
default threshold of 10 pixels. -/
theorem process_section_pair_default (d₁ d₂ : List Detection) :
    process_section_pair d₁ d₂ none = find_colocalizations d₁ d₂ 10 := rfl

/-! ### Distance distribution analysis (create_distribution_report,
write_distance_distribution) -/

/-- Membership of a distance in histogram bin `k` of
`np.histogram(distances, bins=np.arange(0, max_dist + 1, 1))`: every bin
is the half-open interval from `k` to `k + 1`, except the last bin, which
`np.histogram` closes on the right at `max_dist`. -/
def inBin (maxDist k : ℕ) (d : ℚ) : Bool :=
  if k + 1 = maxDist then decide ((k : ℚ) ≤ d) && decide (d ≤ (maxDist : ℚ))
  else decide ((k : ℚ) ≤ d) && decide (d < ((k : ℚ) + 1))

/-- The per-bin counts of `np.histogram` over unit bins on
`[0, max_dist]`. -/
def histCounts (distances : List ℚ) (maxDist : ℕ) : List ℕ :=
  (List.range maxDist).map (fun k => distances.countP (inBin maxDist k))

/-- Running sums, as `np.cumsum`. -/
def cumsum (acc : ℕ) : List ℕ → List ℕ
  | [] => []
  | x :: xs => (acc + x) :: cumsum (acc + x) xs

/-- The per-step increase examined by the plateau scan of
`create_distribution_report`, as a percentage of the reference-channel
detection count; the positivity branch of the source is kept although for
a natural-number cumulative count both branches agree. -/
def increaseAt (cum : List ℕ) (totalCh1 : ℕ) (i j : ℕ) : ℚ :=
  if 0 < cum.getD (i - j - 1) 0 then
    (((cum.getD (i - j) 0 : ℕ) : ℚ) - ((cum.getD (i - j - 1) 0 : ℕ) : ℚ))
      / (totalCh1 : ℚ) * 100
  else ((cum.getD (i - j) 0 : ℕ) : ℚ) / (totalCh1 : ℚ) * 100

/-- The inner test of the plateau scan: the increases over the three most
recent bins are all below 0.5 percent. -/
def plateauAt (cum : List ℕ) (totalCh1 : ℕ) (i : ℕ) : Bool :=
  decide (increaseAt cum totalCh1 i 0 < 1/2) &&
  decide (increaseAt cum totalCh1 i 1 < 1/2) &&
  decide (increaseAt cum totalCh1 i 2 < 1/2)

/-- The plateau scan of `create_distribution_report`: the first index `i`
of `range(3, len(cumulative))` whose three most recent increases are all
below 0.5 percent of the reference count, if any. -/
def findPlateau (cum : List ℕ) (totalCh1 : ℕ) : Option ℕ :=
  (List.range cum.length).find? (fun i => decide (3 ≤ i) && plateauAt cum totalCh1 i)

/-- The stored distance-distribution record: bin starts, per-bin counts,
cumulative counts and the plateau index, as placed in
`section_results` by `create_distribution_report` (the unit string is
presentation and omitted). -/
structure DistData where
  bins : List ℕ
  counts : List ℕ
  cumulative : List ℕ
  plateau : Option ℕ
deriving DecidableEq

/-- Embedding of `create_distribution_report` for one channel pair, over
the list of raw nearest-neighbour distances (already unit-converted by
the caller), the maximal analysed distance, the reference-channel
detection count, and whether plateau truncation was requested
(`self.stop_at_plateau`).  Builds the unit-width histogram, its running
sums, optionally scans for a plateau, and truncates all three sequences
at the plateau index when one is found (otherwise the stored bins are the
bin starts `bins[:-1]`).  The caller guarantees a nonzero reference count
(the report is only generated when the distances list is nonempty, which
requires a nonempty reference channel). -/
def create_distribution_report (distances : List ℚ) (maxDist : ℕ)
    (totalCh1 : ℕ) (stopAtPlateau : Bool) : DistData :=
  let hist := histCounts distances maxDist
  let cum := cumsum 0 hist
  let plateau := if stopAtPlateau then findPlateau cum totalCh1 else none
  match plateau with
  | some i => ⟨(List.range (maxDist + 1)).take i, hist.take i, cum.take i, some i⟩
  | none => ⟨List.range maxDist, hist, cum, none⟩

/-- One row of the distance-distribution CSV: the numeric fields of the
row dictionary built by `write_distance_distribution` (the distance-range
label is determined by bin_start, and the one-decimal string formatting
of the percentages is presentation and kept as the exact rational). -/
structure DistRow where
  bin_start : ℕ
  bin_end : ℕ
  count : ℕ
  cumulative_count : ℕ
  percent_of_ch1 : ℚ
  cumulative_percent : ℚ
deriving DecidableEq

/-- The row-building loop of `write_distance_distribution`: an early
return on a missing or empty cumulative list, the denominator
`total_count = cumulative[-1]`, and one row per zipped
(bin, count, cumulative) triple with both percentage fields computed
against `total_count`, or reported as zero when `total_count` is zero. -/
def write_distance_distribution_rows (dd : DistData) : List DistRow :=
  if dd.cumulative.isEmpty then []
  else
    let total := dd.cumulative.getLastD 0
    (dd.bins.zip (dd.counts.zip dd.cumulative)).map (fun bcc =>
      { bin_start := bcc.1
        bin_end := bcc.1 + 1
        count := bcc.2.1
        cumulative_count := bcc.2.2
        percent_of_ch1 := if 0 < total then ((bcc.2.1 : ℕ) : ℚ) / (total : ℚ) * 100 else 0
        cumulative_percent := if 0 < total then ((bcc.2.2 : ℕ) : ℚ) / (total : ℚ) * 100 else 0 })

/-- The distribution pipeline for one channel pair: build the (possibly
truncated) histogram record, then the report rows. -/
def distributionRows (distances : List ℚ) (maxDist : ℕ) (totalCh1 : ℕ)
    (stopAtPlateau : Bool) : List DistRow :=
  write_distance_distribution_rows
    (create_distribution_report distances maxDist totalCh1 stopAtPlateau)

/-! ### Generic first-match lemmas for the plateau scan -/

/-- A successful `find?` splits the list into a failing prefix, the found
element, and a suffix. -/
theorem find?_split {α} (p : α → Bool) :
    ∀ (l : List α) (a : α), l.find? p = some a →
      ∃ pre post, l = pre ++ a :: post ∧ (∀ x ∈ pre, p x = false) ∧ p a = true := by
  intro l
  induction l with
  | nil => intro a h; cases h
  | cons b bs ih =>
      intro a h
      by_cases hp : p b = true
      · rw [List.find?_cons_of_pos _ hp] at h
        cases h
        refine ⟨[], bs, rfl, ?_, hp⟩
        intro x hx
        cases hx
      · rw [List.find?_cons_of_neg _ (by simpa using hp)] at h
        rcases ih a h with ⟨pre, post, h1, h2, h3⟩
        refine ⟨b :: pre, post, by rw [h1]; rfl, ?_, h3⟩
        intro x hx
        rcases List.mem_cons.mp hx with hx | hx
        · subst hx; simpa using hp
        · exact h2 x hx

/-- A decomposition of `List.range` determines the split point. -/
theorem range_split (n a : ℕ) (pre post : List ℕ)
    (h : List.range n = pre ++ a :: post) : a = pre.length ∧ pre = List.range a := by
  have hlen : pre.length + (a :: post).length = n := by
    have := congrArg List.length h
    simpa using this.symm
  have hlt : pre.length < n := by
    simp at hlen
    omega
  have htake : (List.range n).take (pre.length + 1) = pre ++ [a] := by
    rw [h]
    rw [List.take_append_eq_append_take]
    simp
  have htake2 : (List.range n).take (pre.length + 1) = List.range (pre.length + 1) := by
    rw [List.take_range]
    congr 1
    omega
  have hr : List.range (pre.length + 1) = pre ++ [a] := by rw [← htake2, htake]
  rw [List.range_succ] at hr
  have hpre : pre = List.range pre.length := by
    have h2 := congrArg (List.take pre.length) hr
    rw [List.take_left' (by simp), List.take_left' rfl] at h2
    exact h2.symm
  have ha : a = pre.length := by
    rw [hpre] at hr
    simp only [List.length_range] at hr
    have h3 := List.append_cancel_left hr
    simpa using h3.symm
  refine ⟨ha, ?_⟩
  rw [ha]
  exact hpre

/-- A successful `find?` over `List.range n` returns the least index
satisfying the predicate. -/
theorem find?_range_spec (p : ℕ → Bool) (n a : ℕ)
    (h : (List.range n).find? p = some a) :
    p a = true ∧ a < n ∧ ∀ b < a, p b = false := by
  rcases find?_split p (List.range n) a h with ⟨pre, post, h1, h2, h3⟩
  rcases range_split n a pre post h1 with ⟨ha, hpre⟩
  refine ⟨h3, ?_, ?_⟩
  · have : a ∈ List.range n := by
      rw [h1]; exact List.mem_append_right _ (List.mem_cons_self _ _)
    exact List.mem_range.mp this
  · intro b hb
    apply h2
    rw [hpre]
    exact List.mem_range.mpr (by omega)

/-- If some index below `n` satisfies the predicate, `find?` over
`List.range n` succeeds with an index no larger than it. -/
theorem find?_range_exists (p : ℕ → Bool) (n i : ℕ) (hi : i < n) (hp : p i = true) :
    ∃ a, (List.range n).find? p = some a ∧ a ≤ i := by
  have hsome : ((List.range n).find? p).isSome := by
    rw [List.find?_isSome]
    exact ⟨i, List.mem_range.mpr hi, hp⟩
  rcases Option.isSome_iff_exists.mp hsome with ⟨a, ha⟩
  refine ⟨a, ha, ?_⟩
  rcases find?_range_spec p n a ha with ⟨_, _, hmin⟩
  by_contra hc
  have : p i = false := hmin i (by omega)
  rw [hp] at this
  cases this

/-- The plateau condition of the specification at bin `i`: the
cumulative-count increase over each of the three most recent bins,
expressed as a percentage of the reference-channel detection count, is
below 0.5 percent. -/
def plateau_condition (cum : List ℕ) (totalCh1 : ℕ) (i : ℕ) : Prop :=
  ∀ j < 3, (((cum.getD (i - j) 0 : ℕ) : ℚ) - ((cum.getD (i - j - 1) 0 : ℕ) : ℚ))
      / (totalCh1 : ℚ) * 100 < 1/2

instance (cum : List ℕ) (totalCh1 : ℕ) (i : ℕ) :
    Decidable (plateau_condition cum totalCh1 i) := by
  unfold plateau_condition
  infer_instance

/-- The positivity branch kept from the source is arithmetically
redundant: the examined increase is always the difference quotient. -/
theorem increaseAt_eq (cum : List ℕ) (totalCh1 : ℕ) (i j : ℕ) :
    increaseAt cum totalCh1 i j
      = (((cum.getD (i - j) 0 : ℕ) : ℚ) - ((cum.getD (i - j - 1) 0 : ℕ) : ℚ))
          / (totalCh1 : ℚ) * 100 := by
  unfold increaseAt
  by_cases h : 0 < cum.getD (i - j - 1) 0
  · rw [if_pos h]
  · rw [if_neg h]
    have hz : cum.getD (i - j - 1) 0 = 0 := by omega
    rw [hz]
    push_cast
    ring_nf

/-- The inner scan test agrees with the specification condition. -/
theorem plateauAt_iff (cum : List ℕ) (totalCh1 : ℕ) (i : ℕ) :
    plateauAt cum totalCh1 i = true ↔ plateau_condition cum totalCh1 i := by
  unfold plateauAt plateau_condition
  simp only [Bool.and_eq_true, decide_eq_true_eq, increaseAt_eq]
  constructor
  · rintro ⟨⟨h0, h1⟩, h2⟩ j hj
    interval_cases j
    · exact h0
    · exact h1
    · exact h2
  · intro h
    exact ⟨⟨h 0 (by norm_num), h 1 (by norm_num)⟩, h 2 (by norm_num)⟩

/-- C5.  With plateau detection enabled and a nonzero reference count,
the analyzer flags the first bin index `i ≥ 3` (the 4th bin) whose three
most recent cumulative increases are all below 0.5 percent of the
reference count; when flagged, the reported bins, counts and cumulative
counts are the full histogram truncated at `i`, the truncation point is
recorded in the plateau field, and the (truncated) report is still
produced. -/
theorem create_distribution_report_plateau
    (ds : List ℚ) (maxDist totalCh1 : ℕ) (htot : 0 < totalCh1) :
    (∀ i, (create_distribution_report ds maxDist totalCh1 true).plateau = some i →
        3 ≤ i ∧ i < (cumsum 0 (histCounts ds maxDist)).length ∧
        plateau_condition (cumsum 0 (histCounts ds maxDist)) totalCh1 i ∧
        (∀ i', 3 ≤ i' → i' < i →
          ¬ plateau_condition (cumsum 0 (histCounts ds maxDist)) totalCh1 i') ∧
        (create_distribution_report ds maxDist totalCh1 true).bins
            = (List.range (maxDist + 1)).take i ∧
        (create_distribution_report ds maxDist totalCh1 true).counts
            = (histCounts ds maxDist).take i ∧
        (create_distribution_report ds maxDist totalCh1 true).cumulative
            = (cumsum 0 (histCounts ds maxDist)).take i) ∧
    (∀ i, 3 ≤ i → i < (cumsum 0 (histCounts ds maxDist)).length →
        plateau_condition (cumsum 0 (histCounts ds maxDist)) totalCh1 i →
        ∃ i₀, i₀ ≤ i ∧
          (create_distribution_report ds maxDist totalCh1 true).plateau = some i₀) := by
  have hrep : create_distribution_report ds maxDist totalCh1 true
      = match findPlateau (cumsum 0 (histCounts ds maxDist)) totalCh1 with
        | some i => ⟨(List.range (maxDist + 1)).take i, (histCounts ds maxDist).take i,
            (cumsum 0 (histCounts ds maxDist)).take i, some i⟩
        | none => ⟨List.range maxDist, histCounts ds maxDist,
            cumsum 0 (histCounts ds maxDist), none⟩ := rfl
  constructor
  · intro i hi
    cases hfp : findPlateau (cumsum 0 (histCounts ds maxDist)) totalCh1 with
    | none =>
        rw [hrep, hfp] at hi
        cases hi
    | some i₀ =>
        rw [hrep, hfp] at hi
        have hii : i₀ = i := by
          have : some i₀ = some i := hi
          exact Option.some.inj this
        subst hii
        have hfind := hfp
        unfold findPlateau at hfind
        rcases find?_range_spec _ _ _ hfind with ⟨hp, hlt, hmin⟩
        simp only [Bool.and_eq_true, decide_eq_true_eq] at hp
        refine ⟨hp.1, hlt, (plateauAt_iff _ _ _).mp hp.2, ?_, ?_, ?_, ?_⟩
        · intro i' h3 hilt hcond
          have := hmin i' hilt
          simp only [Bool.and_eq_true, decide_eq_true_eq] at this
          rw [Bool.eq_false_iff] at this
          apply this
          simp only [Bool.and_eq_true, decide_eq_true_eq]
          exact ⟨h3, (plateauAt_iff _ _ _).mpr hcond⟩
        · rw [hrep, hfp]
        · rw [hrep, hfp]
        · rw [hrep, hfp]
  · intro i h3 hlen hcond
    have hp : (decide (3 ≤ i) && plateauAt (cumsum 0 (histCounts ds maxDist)) totalCh1 i)
        = true := by
      simp only [Bool.and_eq_true, decide_eq_true_eq]
      exact ⟨h3, (plateauAt_iff _ _ _).mpr hcond⟩
    rcases find?_range_exists
        (fun k => decide (3 ≤ k) && plateauAt (cumsum 0 (histCounts ds maxDist)) totalCh1 k)
        _ i hlen hp with ⟨a, ha, hale⟩
    refine ⟨a, hale, ?_⟩
    have ha2 : findPlateau (cumsum 0 (histCounts ds maxDist)) totalCh1 = some a := ha
    rw [hrep, ha2]

/-- Witness for C5: four distances of one half against a reference count
of 100 over ten bins flag a plateau at bin 3 and truncate the histogram
there. -/
theorem create_distribution_report_plateau_witness :
    0 < 100 ∧
    (create_distribution_report [1/2, 1/2, 1/2, 1/2] 10 100 true).plateau = some 3 ∧
    (create_distribution_report [1/2, 1/2, 1/2, 1/2] 10 100 true).counts
        = (histCounts [1/2, 1/2, 1/2, 1/2] 10).take 3 ∧
    (create_distribution_report [1/2, 1/2, 1/2, 1/2] 10 100 true).cumulative
        = (cumsum 0 (histCounts [1/2, 1/2, 1/2, 1/2] 10)).take 3 := by
  have h := (create_distribution_report_plateau [1/2, 1/2, 1/2, 1/2] 10 100
    (by norm_num)).1 3 (by with_unfolding_all decide)
  exact ⟨by norm_num, by with_unfolding_all decide, h.2.2.2.2.2.1, h.2.2.2.2.2.2⟩

/-- C4 counterexample.  Five distances, one per bin, with plateau
truncation requested (no plateau occurs, reference count 100): the first
row reports 20 percent — the count divided by the final cumulative count
5 — and not 1 percent, which the claim predicts from the
reference-channel denominator 100 when stop_at_plateau is requested. -/
theorem distributionRows_denominator_counterexample :
    (distributionRows [1/2, 3/2, 5/2, 7/2, 9/2] 5 100 true).map
        (fun r => r.percent_of_ch1) = [20, 20, 20, 20, 20] ∧
    ((20 : ℚ) ≠ ((1 : ℚ) / 100) * 100) := by
  constructor
  · with_unfolding_all decide
  · norm_num

/-- C4 (amended).  The percentage fields of every distance-distribution
row use the final cumulative count of the (possibly plateau-truncated)
histogram as the 100 percent denominator, whether or not stop_at_plateau
truncation was requested; when that denominator is zero the percentages
are reported as zero rather than failing. -/
theorem distributionRows_denominator (ds : List ℚ) (maxDist totalCh1 : ℕ) (stop : Bool) :
    ∀ r ∈ distributionRows ds maxDist totalCh1 stop,
      (r.percent_of_ch1 =
        if 0 < (create_distribution_report ds maxDist totalCh1 stop).cumulative.getLastD 0
        then ((r.count : ℕ) : ℚ)
            / (((create_distribution_report ds maxDist totalCh1 stop).cumulative.getLastD 0
                : ℕ) : ℚ) * 100
        else 0) ∧
      (r.cumulative_percent =
        if 0 < (create_distribution_report ds maxDist totalCh1 stop).cumulative.getLastD 0
        then ((r.cumulative_count : ℕ) : ℚ)
            / (((create_distribution_report ds maxDist totalCh1 stop).cumulative.getLastD 0
                : ℕ) : ℚ) * 100
        else 0) := by
  intro r hr
  unfold distributionRows write_distance_distribution_rows at hr
  by_cases hemp : (create_distribution_report ds maxDist totalCh1 stop).cumulative.isEmpty
  · rw [if_pos hemp] at hr
    cases hr
  · rw [if_neg hemp] at hr
    simp only [List.mem_map] at hr
    obtain ⟨bcc, hb, hrr⟩ := hr
    subst hrr
    constructor
    · by_cases hpos :
        0 < (create_distribution_report ds maxDist totalCh1 stop).cumulative.getLastD 0
      · rw [if_pos hpos]
      · rw [if_neg hpos]
    · by_cases hpos :
        0 < (create_distribution_report ds maxDist totalCh1 stop).cumulative.getLastD 0
      · rw [if_pos hpos]
      · rw [if_neg hpos]

/-- Witness for the amended C4 at a concrete input with plateau
truncation requested. -/
theorem distributionRows_denominator_witness :
    (⟨0, 1, 1, 1, 20, 20⟩ : DistRow) ∈ distributionRows [1/2, 3/2, 5/2, 7/2, 9/2] 5 100 true ∧
    ((⟨0, 1, 1, 1, 20, 20⟩ : DistRow).percent_of_ch1 =
      if 0 < (create_distribution_report [1/2, 3/2, 5/2, 7/2, 9/2] 5 100 true).cumulative.getLastD 0
      then (((⟨0, 1, 1, 1, 20, 20⟩ : DistRow).count : ℕ) : ℚ)
          / (((create_distribution_report [1/2, 3/2, 5/2, 7/2, 9/2] 5 100
              true).cumulative.getLastD 0 : ℕ) : ℚ) * 100
      else 0) := by
  have hm : (⟨0, 1, 1, 1, 20, 20⟩ : DistRow)
      ∈ distributionRows [1/2, 3/2, 5/2, 7/2, 9/2] 5 100 true := by
    with_unfolding_all decide
  exact ⟨hm, (distributionRows_denominator [1/2, 3/2, 5/2, 7/2, 9/2] 5 100 true _ hm).1⟩

/-! ### Histogram conservation lemmas -/

/-- Running sums as partial sums: entry `k` of `np.cumsum` is the sum of
the first `k + 1` counts. -/
theorem cumsum_getD (l : List ℕ) (acc k : ℕ) (hk : k < (cumsum acc l).length) :
    (cumsum acc l).getD k 0 = acc + (l.take (k + 1)).sum := by
  induction l generalizing acc k with
  | nil => cases hk
  | cons x xs ih =>
      cases k with
      | zero => simp [cumsum]
      | succ k =>
          have hk' : k < (cumsum (acc + x) xs).length := by
            simpa [cumsum] using hk
          have := ih (acc + x) k hk'
          simp only [cumsum, List.getD_cons_succ, List.take_succ_cons, List.sum_cons]
          rw [this]
          omega

/-- Summing an indicator over a list counts the satisfying elements. -/
theorem sum_map_indicator {α} (p : α → Bool) (l : List α) :
    (l.map (fun x => if p x = true then 1 else 0)).sum = l.countP p := by
  induction l with
  | nil => rfl
  | cons a l ih =>
      simp only [List.map_cons, List.sum_cons, List.countP_cons, ih]
      by_cases hp : p a = true
      · simp only [if_pos hp]
        omega
      · simp only [if_neg hp]
        omega

/-- Pointwise addition distributes over mapped sums. -/
theorem sum_map_add_distrib {α} (l : List α) (f g : α → ℕ) :
    (l.map (fun x => f x + g x)).sum = (l.map f).sum + (l.map g).sum := by
  induction l with
  | nil => rfl
  | cons a l ih =>
      simp only [List.map_cons, List.sum_cons, ih]
      omega

/-- Adding one distance adds its number of containing bins to the total
histogram count. -/
theorem histCounts_sum_cons (d : ℚ) (ds : List ℚ) (maxDist : ℕ) :
    (histCounts (d :: ds) maxDist).sum
      = (histCounts ds maxDist).sum
        + (List.range maxDist).countP (fun k => inBin maxDist k d) := by
  unfold histCounts
  have h1 : (List.range maxDist).map (fun k => (d :: ds).countP (inBin maxDist k))
      = (List.range maxDist).map
          (fun k => ds.countP (inBin maxDist k) + if inBin maxDist k d = true then 1 else 0) := by
    apply List.map_congr_left
    intro k _
    rw [List.countP_cons]
  rw [h1, sum_map_add_distrib, sum_map_indicator]

/-- A nodup list whose elements are pairwise equal has at most one
element. -/
theorem length_le_one_of_nodup {α} (l : List α) (hnd : l.Nodup)
    (h : ∀ x ∈ l, ∀ y ∈ l, x = y) : l.length ≤ 1 := by
  cases l with
  | nil => simp
  | cons a l =>
      cases l with
      | nil => simp
      | cons b l =>
          exfalso
        
          have hab : a = b :=
            h a (List.mem_cons_self _ _) b (List.mem_cons_of_mem _ (List.mem_cons_self _ _))
          rw [List.nodup_cons] at hnd
          exact hnd.1 (hab ▸ List.mem_cons_self b l)

/-- Two bins containing the same distance coincide. -/
theorem inBin_unique (maxDist k₁ k₂ : ℕ) (d : ℚ) (h₁ : k₁ < maxDist) (h₂ : k₂ < maxDist)
    (hb₁ : inBin maxDist k₁ d = true) (hb₂ : inBin maxDist k₂ d = true) : k₁ = k₂ := by
  have key : ∀ i j : ℕ, i < maxDist → j < maxDist → inBin maxDist i d = true →
      inBin maxDist j d = true → i < j → False := by
    intro i j hi hj hbi hbj hij
    unfold inBin at hbi hbj
    have hine : i + 1 ≠ maxDist := by omega
    rw [if_neg hine] at hbi
    simp only [Bool.and_eq_true, decide_eq_true_eq] at hbi
    have hjd : (j : ℚ) ≤ d := by
      by_cases hje : j + 1 = maxDist
      · rw [if_pos hje] at hbj
        simp only [Bool.and_eq_true, decide_eq_true_eq] at hbj
        exact hbj.1
      · rw [if_neg hje] at hbj
        simp only [Bool.and_eq_true, decide_eq_true_eq] at hbj
        exact hbj.1
    have hcast : ((i : ℚ) + 1) ≤ (j : ℚ) := by
      have : (i + 1 : ℕ) ≤ j := hij
      exact_mod_cast this
    linarith [hbi.2]
  rcases lt_trichotomy k₁ k₂ with h | h | h
  · exact absurd (key k₁ k₂ h₁ h₂ hb₁ hb₂ h) (by simp)
  · exact h
  · exact absurd (key k₂ k₁ h₂ h₁ hb₂ hb₁ h) (by simp)

/-- Every distance lies in at most one bin. -/
theorem countP_inBin_le_one (maxDist : ℕ) (d : ℚ) :
    (List.range maxDist).countP (fun k => inBin maxDist k d) ≤ 1 := by
  rw [List.countP_eq_length_filter]
  apply length_le_one_of_nodup
  · exact (List.nodup_range maxDist).filter _
  · intro x hx y hy
    rw [List.mem_filter, List.mem_range] at hx hy
    exact inBin_unique maxDist x y d hx.1 hy.1 (by simpa using hx.2) (by simpa using hy.2)

/-- Every distance between 0 and the maximal distance (inclusive) lies in
exactly one bin, provided there is at least one bin. -/
theorem countP_inBin_eq_one (maxDist : ℕ) (d : ℚ) (h0 : 0 < maxDist) (hd0 : 0 ≤ d)
    (hdm : d ≤ (maxDist : ℚ)) :
    (List.range maxDist).countP (fun k => inBin maxDist k d) = 1 := by
  refine le_antisymm (countP_inBin_le_one maxDist d) ?_
  have hex : ∃ k ∈ List.range maxDist, inBin maxDist k d = true := by
    set f : ℕ := (⌊d⌋).toNat with hf
    have h1 : (0 : ℤ) ≤ ⌊d⌋ := Int.floor_nonneg.mpr hd0
    have hcast : ((f : ℕ) : ℚ) = ((⌊d⌋ : ℤ) : ℚ) := by
      rw [hf]
      exact_mod_cast congrArg (fun z : ℤ => (z : ℚ)) (Int.toNat_of_nonneg h1)
    have hfle : (f : ℚ) ≤ d := by
      rw [hcast]
      exact Int.floor_le d
    have hflt : d < (f : ℚ) + 1 := by
      rw [hcast]
      exact Int.lt_floor_add_one d
    by_cases hfm : f < maxDist
    · refine ⟨f, List.mem_range.mpr hfm, ?_⟩
      unfold inBin
      by_cases hfe : f + 1 = maxDist
      · rw [if_pos hfe]
        simp only [Bool.and_eq_true, decide_eq_true_eq]
        exact ⟨hfle, hdm⟩
      · rw [if_neg hfe]
        simp only [Bool.and_eq_true, decide_eq_true_eq]
        exact ⟨hfle, hflt⟩
    · refine ⟨maxDist - 1, List.mem_range.mpr (by omega), ?_⟩
      unfold inBin
      rw [if_pos (by omega)]
      simp only [Bool.and_eq_true, decide_eq_true_eq]
      have hdm' : (maxDist : ℚ) ≤ d := by
        have h1 : (maxDist : ℚ) ≤ (f : ℚ) := by exact_mod_cast not_lt.mp hfm
        linarith
      have hsub : ((maxDist - 1 : ℕ) : ℚ) ≤ (maxDist : ℚ) := by
        have : (maxDist - 1 : ℕ) ≤ maxDist := by omega
        exact_mod_cast this
      exact ⟨le_trans hsub (le_trans hdm' (le_refl d)), hdm⟩
  rcases hex with ⟨k, hk, hbk⟩
  have hpos : 0 < (List.range maxDist).countP (fun k => inBin maxDist k d) :=
    List.countP_pos_iff.mpr ⟨k, hk, hbk⟩
  omega

/-- Total histogram count is at most the number of distances. -/
theorem histCounts_sum_le (ds : List ℚ) (maxDist : ℕ) :
    (histCounts ds maxDist).sum ≤ ds.length := by
  induction ds with
  | nil => simp [histCounts]
  | cons d ds ih =>
      rw [histCounts_sum_cons]
      have := countP_inBin_le_one maxDist d
      simp only [List.length_cons]
      omega

/-- Total histogram count equals the number of distances when all
distances lie in `[0, maxDist]` and there is at least one bin. -/
theorem histCounts_sum_eq (ds : List ℚ) (maxDist : ℕ) (h0 : 0 < maxDist)
    (hd : ∀ d ∈ ds, 0 ≤ d ∧ d ≤ (maxDist : ℚ)) :
    (histCounts ds maxDist).sum = ds.length := by
  induction ds with
  | nil => simp [histCounts]
  | cons d ds ih =>
      rw [histCounts_sum_cons]
      have h1 := hd d (List.mem_cons_self _ _)
      rw [countP_inBin_eq_one maxDist d h0 h1.1 h1.2]
      rw [ih (fun x hx => hd x (List.mem_cons_of_mem _ hx))]
      simp

/-- C6 counterexample.  A single raw distance exactly equal to
max_distance is counted: with distance 5 and max_distance 5 the histogram
is [0,0,0,0,1], total count 1, although the claim asserts that every
distance greater than or equal to max_distance is excluded from all bin
counts (which would give total 0).  np.histogram closes its last bin on
the right. -/
theorem create_distribution_report_histogram_counterexample :
    (create_distribution_report [(5:ℚ)] 5 1 false).counts = [0, 0, 0, 0, 1] ∧
    (create_distribution_report [(5:ℚ)] 5 1 false).counts.sum = 1 ∧
    ¬ ((5:ℚ) < 5) := by
  refine ⟨?_, ?_, by norm_num⟩
  · with_unfolding_all decide
  · with_unfolding_all decide

/-- C6 (amended).  With no plateau truncation the report carries the bin
starts 0..max_dist-1 of unit width, the per-bin counts and their running
sums; every bin is the half-open unit interval from its start except the
last bin, which also includes distances equal to max_distance (the closed
right edge of np.histogram), so distances strictly above max_distance or
below 0 are excluded; the total count never exceeds the number of raw
distances and equals it when there is at least one bin and every raw
distance lies between 0 and max_distance inclusive. -/
theorem create_distribution_report_histogram
    (ds : List ℚ) (maxDist totalCh1 : ℕ) :
    (create_distribution_report ds maxDist totalCh1 false).bins = List.range maxDist ∧
    (create_distribution_report ds maxDist totalCh1 false).counts = histCounts ds maxDist ∧
    (create_distribution_report ds maxDist totalCh1 false).cumulative
        = cumsum 0 (histCounts ds maxDist) ∧
    (∀ k, k + 1 < maxDist → ∀ d : ℚ,
      (inBin maxDist k d = true ↔ ((k : ℚ) ≤ d ∧ d < (k : ℚ) + 1))) ∧
    (∀ k, k + 1 = maxDist → ∀ d : ℚ,
      (inBin maxDist k d = true ↔ ((k : ℚ) ≤ d ∧ d ≤ (maxDist : ℚ)))) ∧
    (∀ k, k < maxDist →
      (histCounts ds maxDist).getD k 0 = ds.countP (inBin maxDist k)) ∧
    (∀ k, k < (cumsum 0 (histCounts ds maxDist)).length →
      (cumsum 0 (histCounts ds maxDist)).getD k 0
        = ((histCounts ds maxDist).take (k + 1)).sum) ∧
    (histCounts ds maxDist).sum ≤ ds.length ∧
    (0 < maxDist → (∀ d ∈ ds, 0 ≤ d ∧ d ≤ (maxDist : ℚ)) →
      (histCounts ds maxDist).sum = ds.length) := by
  refine ⟨rfl, rfl, rfl, ?_, ?_, ?_, ?_, histCounts_sum_le ds maxDist,
    histCounts_sum_eq ds maxDist⟩
  · intro k hk d
    unfold inBin
    rw [if_neg (by omega)]
    simp only [Bool.and_eq_true, decide_eq_true_eq]
  · intro k hk d
    unfold inBin
    rw [if_pos hk]
    simp only [Bool.and_eq_true, decide_eq_true_eq]
  · intro k hk
    unfold histCounts
    rw [List.getD_eq_getElem?_getD, List.getElem?_map, List.getElem?_range hk]
    rfl
  · intro k hk
    have := cumsum_getD (histCounts ds maxDist) 0 k hk
    simpa using this

/-- Witness for the amended C6 on the distance scenario of the
specification: four in-range distances over five unit bins give total
count 4. -/
theorem create_distribution_report_histogram_witness :
    0 < 5 ∧ (∀ d ∈ [(1:ℚ)/2, 3/2, 3/2, 49/10], 0 ≤ d ∧ d ≤ ((5:ℕ) : ℚ)) ∧
    (histCounts [(1:ℚ)/2, 3/2, 3/2, 49/10] 5).sum = 4 := by
  have h := (create_distribution_report_histogram [(1:ℚ)/2, 3/2, 3/2, 49/10] 5 7).2.2.2.2.2.2.2.2
  refine ⟨by norm_num, by with_unfolding_all decide, ?_⟩
  have h2 := h (by norm_num) (by with_unfolding_all decide)
  simpa using h2

/-! ### Triple colocalizations (find_triple_colocalizations) -/

/-- Keep-first deduplication of id pairs, determinising the Python set
comprehension over the pairs of one pairwise result (set iteration order
is implementation-defined; only membership matters for the properties
proved below, and the matcher never produces duplicate id pairs). -/
def dedupKeepFirst (seen : List (ℕ × ℕ)) : List (ℕ × ℕ) → List (ℕ × ℕ)
  | [] => []
  | p :: ps =>
      if p ∈ seen then dedupKeepFirst seen ps
      else p :: dedupKeepFirst (p :: seen) ps

/-- The set of id pairs of a pairwise result
(`{(idx1, idx2) for idx1, idx2, _ in pairs}`). -/
def pairIds (pairs : List (ℕ × ℕ × ℚ)) : List (ℕ × ℕ) :=
  dedupKeepFirst [] (pairs.map (fun q => (q.1, q.2.1)))

/-- The distance lookup of `find_triple_colocalizations`: the first entry
of the pairs list whose id pair matches the requested pair in either
order, if any (the inner loop with break). -/
def lookupDist (pairs : List (ℕ × ℕ × ℚ)) (pr : ℕ × ℕ) : Option ℚ :=
  (pairs.find? (fun q => ((q.1, q.2.1) == pr) || ((q.2.1, q.1) == pr))).map
    (fun q => q.2.2)

/-- One emitted triple colocalization: the WFA, Agg and PV ids and the
mean of the three looked-up pairwise distances (the Mouse/Section labels
and the two-decimal / micron string renderings are presentation and
omitted). -/
structure TripleMatch where
  wfa : ℕ
  agg : ℕ
  pv : ℕ
  avg_distance : ℚ
deriving DecidableEq

/-- The three distances collected for one candidate triple: the inner
loop over the three pairwise lists, each contributing the first entry
matching the id pair in either order, when found. -/
def tripleDistances (xy xz yz : ColocData) (wa wp : ℕ × ℕ) : List ℚ :=
  ([lookupDist xy.pairs (wa.1, wa.2),
    lookupDist xz.pairs (wa.1, wp.2),
    lookupDist yz.pairs (wa.2, wp.2)]).filterMap id

/-- The representative distance
(`np.mean(distances) if distances else 0`). -/
def meanOf (ds : List ℚ) : ℚ :=
  if ds.length = 0 then 0 else ds.sum / ((ds.length : ℕ) : ℚ)

/-- Embedding of `find_triple_colocalizations`: for every WFA-Agg id pair,
look for a WFA-PV partner of the same WFA id (the `next(...)` over the
WFA-PV id-pair set, determinised to first occurrence; the Python
truthiness test `if pv_match:` also rejects a partner id of 0); check
that the Agg and PV ids are paired in either order; and emit the triple
with the mean of the three distances found by the either-order lookup in
each pairs list. -/
def find_triple_colocalizations (xy xz yz : ColocData) : List TripleMatch :=
  (pairIds xy.pairs).filterMap (fun wa =>
    match (pairIds xz.pairs).find? (fun q => q.1 == wa.1) with
    | none => none
    | some wp =>
        if wp.2 ≠ 0 then
          if (wa.2, wp.2) ∈ pairIds yz.pairs ∨ (wp.2, wa.2) ∈ pairIds yz.pairs then
            some ⟨wa.1, wa.2, wp.2, meanOf (tripleDistances xy xz yz wa wp)⟩
          else none
        else none)

/-- Deduplication only keeps elements of the original list. -/
theorem mem_dedupKeepFirst (p : ℕ × ℕ) :
    ∀ (l seen : List (ℕ × ℕ)), p ∈ dedupKeepFirst seen l → p ∈ l := by
  intro l
  induction l with
  | nil => intro seen h; cases h
  | cons q ps ih =>
      intro seen h
      unfold dedupKeepFirst at h
      by_cases hq : q ∈ seen
      · rw [if_pos hq] at h
        exact List.mem_cons_of_mem _ (ih seen h)
      · rw [if_neg hq] at h
        rcases List.mem_cons.mp h with h | h
        · subst h; exact List.mem_cons_self _ _
        · exact List.mem_cons_of_mem _ (ih (q :: seen) h)

/-- An id pair of the deduplicated set comes from an entry of the pairs
list. -/
theorem mem_pairIds (pairs : List (ℕ × ℕ × ℚ)) (pr : ℕ × ℕ)
    (h : pr ∈ pairIds pairs) : ∃ d, (pr.1, pr.2, d) ∈ pairs := by
  have h1 : pr ∈ pairs.map (fun q => (q.1, q.2.1)) := mem_dedupKeepFirst pr _ [] h
  rcases List.mem_map.mp h1 with ⟨q, hq, hqe⟩
  refine ⟨q.2.2, ?_⟩
  have : (pr.1, pr.2, q.2.2) = q := by
    rw [← hqe]
  rw [this]
  exact hq

/-- A successful distance lookup returns the distance of an entry whose
id pair matches in one of the two orders. -/
theorem lookupDist_mem (pairs : List (ℕ × ℕ × ℚ)) (pr : ℕ × ℕ) (d : ℚ)
    (h : lookupDist pairs pr = some d) :
    (pr.1, pr.2, d) ∈ pairs ∨ (pr.2, pr.1, d) ∈ pairs := by
  unfold lookupDist at h
  cases hfind : pairs.find?
      (fun q => ((q.1, q.2.1) == pr) || ((q.2.1, q.1) == pr)) with
  | none => rw [hfind] at h; cases h
  | some q =>
      rw [hfind] at h
      have hd : q.2.2 = d := Option.some.inj h
      have hmem := List.mem_of_find?_eq_some hfind
      have hp := List.find?_some hfind
      simp only [Bool.or_eq_true, beq_iff_eq] at hp
      rcases hp with hp | hp
      · left
        have hq : (pr.1, pr.2, d) = q := by
          rw [← hp, ← hd]
        rw [hq]; exact hmem
      · right
        have hq : (pr.2, pr.1, d) = q := by
          rw [← hp, ← hd]
        rw [hq]; exact hmem

/-- If some entry matches the id pair in either order, the lookup
succeeds. -/
theorem lookupDist_isSome (pairs : List (ℕ × ℕ × ℚ)) (pr : ℕ × ℕ) (d : ℚ)
    (h : (pr.1, pr.2, d) ∈ pairs ∨ (pr.2, pr.1, d) ∈ pairs) :
    ∃ d', lookupDist pairs pr = some d' := by
  have hsome : (pairs.find?
      (fun q => ((q.1, q.2.1) == pr) || ((q.2.1, q.1) == pr))).isSome := by
    rw [List.find?_isSome]
    rcases h with h | h
    · exact ⟨(pr.1, pr.2, d), h, by simp⟩
    · exact ⟨(pr.2, pr.1, d), h, by simp⟩
  rcases Option.isSome_iff_exists.mp hsome with ⟨q, hq⟩
  refine ⟨q.2.2, ?_⟩
  unfold lookupDist
  rw [hq]
  rfl

/-- C3 (amended).  Every emitted TripleMatch has its WFA-Agg and WFA-PV
pairs present in the stated order and its Agg-PV pair present in either
order in the respective pairwise results, and its representative distance
is the mean of three distances each of which is recorded in the
respective pairwise result for the constituent id pair in one of the two
orders (the lookup takes the first entry matching in either order). -/
theorem find_triple_colocalizations_sound (xy xz yz : ColocData) :
    ∀ tr ∈ find_triple_colocalizations xy xz yz,
      (∃ dxy, (tr.wfa, tr.agg, dxy) ∈ xy.pairs) ∧
      (∃ dxz, (tr.wfa, tr.pv, dxz) ∈ xz.pairs) ∧
      (∃ dyz, (tr.agg, tr.pv, dyz) ∈ yz.pairs ∨ (tr.pv, tr.agg, dyz) ∈ yz.pairs) ∧
      (∃ d₁ d₂ d₃,
        ((tr.wfa, tr.agg, d₁) ∈ xy.pairs ∨ (tr.agg, tr.wfa, d₁) ∈ xy.pairs) ∧
        ((tr.wfa, tr.pv, d₂) ∈ xz.pairs ∨ (tr.pv, tr.wfa, d₂) ∈ xz.pairs) ∧
        ((tr.agg, tr.pv, d₃) ∈ yz.pairs ∨ (tr.pv, tr.agg, d₃) ∈ yz.pairs) ∧
        tr.avg_distance = (d₁ + d₂ + d₃) / 3) := by
  intro tr htr
  unfold find_triple_colocalizations at htr
  rw [List.mem_filterMap] at htr
  obtain ⟨wa, hwa, hf⟩ := htr
  cases hfind : (pairIds xz.pairs).find? (fun q => q.1 == wa.1) with
  | none => rw [hfind] at hf; cases hf
  | some wp =>
      rw [hfind] at hf
      dsimp only at hf
      by_cases hpv : wp.2 ≠ 0
      · rw [if_pos hpv] at hf
        by_cases hyzm : (wa.2, wp.2) ∈ pairIds yz.pairs ∨ (wp.2, wa.2) ∈ pairIds yz.pairs
        · rw [if_pos hyzm] at hf
          have htr' := Option.some.inj hf
          subst htr'
          -- presence of the three constituent pairs
          obtain ⟨dxy, hdxy⟩ := mem_pairIds xy.pairs wa hwa
          have hwp1 : wp.1 = wa.1 := by
            have hp := List.find?_some hfind
            simpa using hp
          obtain ⟨dxz, hdxz⟩ := mem_pairIds xz.pairs wp (List.mem_of_find?_eq_some hfind)
          rw [hwp1] at hdxz
          have hyzd : ∃ dyz, (wa.2, wp.2, dyz) ∈ yz.pairs ∨ (wp.2, wa.2, dyz) ∈ yz.pairs := by
            rcases hyzm with hm | hm
            · obtain ⟨d, hd⟩ := mem_pairIds yz.pairs _ hm
              exact ⟨d, Or.inl hd⟩
            · obtain ⟨d, hd⟩ := mem_pairIds yz.pairs _ hm
              exact ⟨d, Or.inr hd⟩
          obtain ⟨dyz, hdyz⟩ := hyzd
          -- the three lookups succeed
          obtain ⟨e₁, he₁⟩ := lookupDist_isSome xy.pairs (wa.1, wa.2) dxy (Or.inl hdxy)
          obtain ⟨e₂, he₂⟩ := lookupDist_isSome xz.pairs (wa.1, wp.2) dxz (Or.inl hdxz)
          obtain ⟨e₃, he₃⟩ := lookupDist_isSome yz.pairs (wa.2, wp.2) dyz hdyz
          have hds : tripleDistances xy xz yz wa wp = [e₁, e₂, e₃] := by
            unfold tripleDistances
            rw [he₁, he₂, he₃]
            rfl
          refine ⟨⟨dxy, hdxy⟩, ⟨dxz, hdxz⟩, ⟨dyz, hdyz⟩, e₁, e₂, e₃, ?_, ?_, ?_, ?_⟩
          · exact lookupDist_mem xy.pairs (wa.1, wa.2) e₁ he₁
          · exact lookupDist_mem xz.pairs (wa.1, wp.2) e₂ he₂
          · exact lookupDist_mem yz.pairs (wa.2, wp.2) e₃ he₃
          · show meanOf (tripleDistances xy xz yz wa wp) = (e₁ + e₂ + e₃) / 3
            rw [hds]
            unfold meanOf
            rw [if_neg (by simp)]
            simp only [List.sum_cons, List.sum_nil, List.length_cons, List.length_nil]
            norm_num
            ring_nf
        · rw [if_neg hyzm] at hf
          cases hf
      · rw [if_neg hpv] at hf
        cases hf

/-- First channel of the C3 counterexample section (WFA detections). -/
def cexWFA : List Detection := [⟨2, 0, 0⟩, ⟨3, 10, 0⟩]

/-- Second channel of the C3 counterexample section (Agg detections). -/
def cexAgg : List Detection := [⟨2, 10, 1⟩, ⟨3, 0, 2⟩]

/-- Third channel of the C3 counterexample section (PV detections). -/
def cexPV : List Detection := [⟨2, 10, 1/2⟩]

/-- WFA-Agg pairwise result of the counterexample at threshold 20. -/
def cexXY : ColocData := find_colocalizations cexWFA cexAgg 20

/-- WFA-PV pairwise result of the counterexample at threshold 20. -/
def cexXZ : ColocData := find_colocalizations cexWFA cexPV 20

/-- Agg-PV pairwise result of the counterexample at threshold 20. -/
def cexYZ : ColocData := find_colocalizations cexAgg cexPV 20

/-- C3 counterexample.  On genuine matcher outputs whose id sets overlap,
the triple (WFA 3, Agg 2, PV 2) is emitted with representative distance
3/2, although its three constituent pairs are uniquely (3,2) in WFA-Agg
with distance 1, (3,2) in WFA-PV with distance 1/4, and (2,2) in Agg-PV
with distance 1/4 (its reversed order is the same id pair), whose mean is
1/2, not 3/2: the WFA-Agg distance lookup matched the reversed pair
(2,3), which occurs earlier in the list, and took its distance 4. -/
theorem find_triple_colocalizations_counterexample :
    cexXY.pairs = [(2, 3, 4), (3, 2, 1)] ∧
    cexXZ.pairs = [(2, 2, 401/4), (3, 2, 1/4)] ∧
    cexYZ.pairs = [(2, 2, 1/4), (3, 2, 409/4)] ∧
    (⟨3, 2, 2, 3/2⟩ : TripleMatch) ∈ find_triple_colocalizations cexXY cexXZ cexYZ ∧
    cexXY.pairs.filter (fun q => q.1 == 3 && q.2.1 == 2) = [(3, 2, 1)] ∧
    cexXZ.pairs.filter (fun q => q.1 == 3 && q.2.1 == 2) = [(3, 2, 1/4)] ∧
    cexYZ.pairs.filter (fun q => (q.1 == 2 && q.2.1 == 2) || (q.1 == 2 && q.2.1 == 2))
        = [(2, 2, 1/4)] ∧
    ((1 : ℚ) + 1/4 + 1/4) / 3 ≠ 3/2 := by
  refine ⟨?_, ?_, ?_, ?_, ?_, ?_, ?_, ?_⟩ <;> with_unfolding_all decide

/-- Witness for the amended C3 on the other triple emitted by the same
counterexample section, whose WFA-Agg distance is found in the stated
order. -/
theorem find_triple_colocalizations_sound_witness :
    (⟨2, 3, 2, 413/6⟩ : TripleMatch) ∈ find_triple_colocalizations cexXY cexXZ cexYZ ∧
    (∃ dxy, ((2 : ℕ), (3 : ℕ), dxy) ∈ cexXY.pairs) := by
  have hm : (⟨2, 3, 2, 413/6⟩ : TripleMatch) ∈ find_triple_colocalizations cexXY cexXZ cexYZ := by
    with_unfolding_all decide
  exact ⟨hm, (find_triple_colocalizations_sound cexXY cexXZ cexYZ _ hm).1⟩
